import Mathlib

/-!
Verification development for the rocketmq-clients C++ benchmark harness
(`cpp/examples/BenchmarkProducer.cpp`) and the ordered-delivery FIFO
producer core described by the repository's design specification.

Part I embeds the harness's `randomString` payload generator.
Part II models the FIFO producer core (router, per-shard queues,
concurrency-bounded dispatcher, close lifecycle) as a labelled
transition system, following the specification, since the core's own
implementation is not part of the supplied sources.
-/

/-! ## Part I: the payload generator of the benchmark harness -/

/-- The 62-character alphanumeric source string of `alphaNumeric()` in
`BenchmarkProducer.cpp`, as a list of characters. -/
def alphaNumeric : List Char :=
  "0123456789abcdefghijklmnopqrstuvwxyzABCDEFGHIJKLMNOPQRSTUVWXYZ".toList

/-- The `while (generated < len)` loop of `randomString`.  The C++ code
shuffles a copy of the alphanumeric source with `std::shuffle` each
iteration; `shuffle i` abstracts the content of `source` at iteration
`i`.  Each iteration appends `delta = min(len - generated, source.length)`
characters.  Termination needs only that the shuffled source is never
empty, which `hs` records. -/
def randomStringGo (shuffle : Nat → List Char) (hs : ∀ n, 0 < (shuffle n).length)
    (len iter generated : Nat) (acc : List Char) : List Char :=
  if h : generated < len then
    randomStringGo shuffle hs len (iter + 1)
      (generated + min (len - generated) (shuffle iter).length)
      (acc ++ (shuffle iter).take (min (len - generated) (shuffle iter).length))
  else acc
termination_by len - generated
decreasing_by
  have h1 : 0 < (shuffle iter).length := hs iter
  have h2 : 1 ≤ min (len - generated) (shuffle iter).length :=
    le_min (by omega) h1
  have h3 : min (len - generated) (shuffle iter).length ≤ len - generated :=
    min_le_left _ _
  omega

/-- `randomString(len)` of `BenchmarkProducer.cpp`: starts with an empty
result and `generated = 0` and runs the append loop. -/
def randomString (shuffle : Nat → List Char) (hs : ∀ n, 0 < (shuffle n).length)
    (len : Nat) : List Char :=
  randomStringGo shuffle hs len 0 0 []

theorem randomStringGo_length (shuffle : Nat → List Char)
    (hs : ∀ n, 0 < (shuffle n).length) (len : Nat) :
    ∀ (fuel iter generated : Nat) (acc : List Char), len - generated ≤ fuel →
      (randomStringGo shuffle hs len iter generated acc).length
        = acc.length + (len - generated) := by
  intro fuel
  induction fuel with
  | zero =>
    intro iter generated acc hle
    rw [randomStringGo]
    rw [dif_neg (by omega)]
    omega
  | succ f ih =>
    intro iter generated acc hle
    rw [randomStringGo]
    by_cases h : generated < len
    · rw [dif_pos h]
      have h1 : 0 < (shuffle iter).length := hs iter
      have h2 : 1 ≤ min (len - generated) (shuffle iter).length :=
        le_min (by omega) h1
      have h3 : min (len - generated) (shuffle iter).length ≤ (shuffle iter).length :=
        min_le_right _ _
      rw [ih _ _ _ (by omega)]
      rw [List.length_append, List.length_take]
      omega
    · rw [dif_neg h]
      omega

theorem randomStringGo_mem (shuffle : Nat → List Char)
    (hs : ∀ n, 0 < (shuffle n).length) (len : Nat)
    (hmem : ∀ n, ∀ c ∈ shuffle n, c ∈ alphaNumeric) :
    ∀ (fuel iter generated : Nat) (acc : List Char), len - generated ≤ fuel →
      ∀ c ∈ randomStringGo shuffle hs len iter generated acc,
        c ∈ acc ∨ c ∈ alphaNumeric := by
  intro fuel
  induction fuel with
  | zero =>
    intro iter generated acc hle c hc
    rw [randomStringGo, dif_neg (by omega)] at hc
    exact Or.inl hc
  | succ f ih =>
    intro iter generated acc hle c hc
    rw [randomStringGo] at hc
    by_cases h : generated < len
    · rw [dif_pos h] at hc
      have h1 : 0 < (shuffle iter).length := hs iter
      have h2 : 1 ≤ min (len - generated) (shuffle iter).length :=
        le_min (by omega) h1
      have := ih _ _ _ (by omega) c hc
      rcases this with hin | hin
      · rcases List.mem_append.mp hin with hin2 | hin2
        · exact Or.inl hin2
        · exact Or.inr (hmem iter c (List.take_subset _ _ hin2))
      · exact Or.inr hin
    · rw [dif_neg h] at hc
      exact Or.inl hc

/-- C9: for every requested length `len`, `randomString(len)` returns a
string of length exactly `len` all of whose characters come from the
62-character alphanumeric set, given that each iteration's shuffled
source is (as `std::shuffle` guarantees) a permutation of that set. -/
theorem c9_randomString_length_charset (shuffle : Nat → List Char)
    (hperm : ∀ n, (shuffle n).Perm alphaNumeric)
    (hs : ∀ n, 0 < (shuffle n).length) (len : Nat) :
    (randomString shuffle hs len).length = len ∧
      ∀ c ∈ randomString shuffle hs len, c ∈ alphaNumeric := by
  constructor
  · have := randomStringGo_length shuffle hs len len 0 0 [] (by omega)
    simpa [randomString] using this
  · intro c hc
    have hmem : ∀ n, ∀ c ∈ shuffle n, c ∈ alphaNumeric := by
      intro n c2 hc2
      exact (hperm n).mem_iff.mp hc2
    have := randomStringGo_mem shuffle hs len hmem len 0 0 [] (by omega) c
      (by simpa [randomString] using hc)
    rcases this with hin | hin
    · simp at hin
    · exact hin

theorem alphaNumeric_length_pos : 0 < alphaNumeric.length := by decide

/-- Witness for C9 at a concrete instance: the identity shuffle stream
(a legal outcome of `std::shuffle`) and `len = 5`. -/
theorem c9_randomString_length_charset_witness :
    (randomString (fun _ => alphaNumeric) (fun _ => alphaNumeric_length_pos) 5).length = 5 ∧
      ∀ c ∈ randomString (fun _ => alphaNumeric) (fun _ => alphaNumeric_length_pos) 5,
        c ∈ alphaNumeric :=
  c9_randomString_length_charset (fun _ => alphaNumeric)
    (fun _ => List.Perm.refl _) (fun _ => alphaNumeric_length_pos) 5

/-- C10: the `randomString` loop terminates: while `generated < len`,
the step appends `delta = min(len - generated, source.length) ≥ 1`
characters (the source alphabet being non-empty), the measure
`len - generated` strictly decreases, and the loop ends with exactly
`len - generated` further characters appended. -/
theorem c10_randomString_terminates (shuffle : Nat → List Char)
    (hs : ∀ n, 0 < (shuffle n).length) (len iter generated : Nat)
    (acc : List Char) (h : generated < len) :
    1 ≤ min (len - generated) (shuffle iter).length ∧
      len - (generated + min (len - generated) (shuffle iter).length)
        < len - generated ∧
      (randomStringGo shuffle hs len iter generated acc).length
        = acc.length + (len - generated) := by
  have h1 : 0 < (shuffle iter).length := hs iter
  have h2 : 1 ≤ min (len - generated) (shuffle iter).length :=
    le_min (by omega) h1
  have h3 : min (len - generated) (shuffle iter).length ≤ len - generated :=
    min_le_left _ _
  refine ⟨h2, by omega, ?_⟩
  exact randomStringGo_length shuffle hs len (len - generated) iter generated acc
    (by omega)

/-- Witness for C10 at a concrete instance. -/
theorem c10_randomString_terminates_witness :
    1 ≤ min (7 - 3) (alphaNumeric.length) ∧
      7 - (3 + min (7 - 3) (alphaNumeric.length)) < 7 - 3 ∧
      (randomStringGo (fun _ => alphaNumeric) (fun _ => alphaNumeric_length_pos)
          7 0 3 []).length
        = (List.nil : List Char).length + (7 - 3) :=
  c10_randomString_terminates (fun _ => alphaNumeric)
    (fun _ => alphaNumeric_length_pos) 7 0 3 [] (by decide)

/-! ## Part II: the ordered-delivery FIFO producer core

Modelled from the spec: the FIFO producer core (partition-key router,
per-shard send queues, concurrency-bounded dispatcher, producer facade
and close lifecycle) is described by the repository's design document
but its implementation is not among the supplied sources; the benchmark
only calls it through `FifoProducer`.  The model below is a labelled
transition system over dispatcher states, faithful to the spec's words:
sends are registered in arrival order, a shard is `hash(key) mod
shard_count`, a worker may start the head of a shard's queue only when
that shard has nothing in flight and fewer than `conc` transmits are in
flight overall, completion (success or failure) fires the completion
sink exactly once, and close stops new enqueues and fails whatever has
not completed with a shutdown error. -/

namespace FifoCore

/-- Error kinds delivered through a send's result channel. -/
inductive ErrKind
  | transportE
  | closedE
  | shutdownE
deriving DecidableEq, Repr

/-- Lifecycle status of one pending send. -/
inductive SendStatus
  | queued
  | inFlight
  | doneOk
  | doneErr (e : ErrKind)
deriving DecidableEq, Repr

/-- A status is terminal when a result has been delivered. -/
def SendStatus.isTerminal : SendStatus → Bool
  | .doneOk => true
  | .doneErr _ => true
  | _ => false

/-- The result visible at the completion sink, when one has been
delivered: exactly one of a receipt or an error. -/
def deliveredResult : SendStatus → Option (Except ErrKind Unit)
  | .doneOk => some (.ok ())
  | .doneErr e => some (.error e)
  | _ => none

/-- One registered send: its ordering-key (`none` = absent), its status,
and how many times its completion callback has been invoked. -/
structure SendRec where
  key : Option String
  status : SendStatus
  cbCount : Nat
deriving DecidableEq, Repr

/-- Dispatcher state: configured concurrency (= shard count), the sends
registered so far in arrival order (index = arrival rank), the log of
transmit starts (send indexes in start order), and the closed flag. -/
structure DState where
  conc : Nat
  sends : List SendRec
  transmits : List Nat
  closed : Bool
deriving DecidableEq, Repr

/-- The partition-key router: `hash(ordering-key) mod shard_count`; an
absent key is treated like the empty key. -/
def route (hash : String → Nat) (n : Nat) (key : Option String) : Nat :=
  hash (key.getD "") % n

/-- Status of the send at arrival index `i`. -/
def statusAt (l : List SendRec) (i : Nat) : Option SendStatus :=
  (l[i]?).map (·.status)

/-- Ordering-key of the send at arrival index `i`. -/
def keyAt (l : List SendRec) (i : Nat) : Option (Option String) :=
  (l[i]?).map (·.key)

/-- Shard of the send at arrival index `i`. -/
def shardAt (hash : String → Nat) (n : Nat) (l : List SendRec) (i : Nat) :
    Option Nat :=
  (keyAt l i).map (route hash n)

/-- Number of sends currently in flight. -/
def inFlightCount (l : List SendRec) : Nat :=
  l.countP fun r => decide (r.status = SendStatus.inFlight)

/-- Guard for a worker starting the transmit of send `i`: `i` is queued,
a worker is free (fewer than `conc` transmits in flight), `i`'s shard
has nothing in flight, and `i` is the head of its shard's queue (no
earlier-arrived send of the same shard is still queued). -/
def startOk (hash : String → Nat) (s : DState) (i : Nat) : Prop :=
  statusAt s.sends i = some .queued ∧
  inFlightCount s.sends < s.conc ∧
  (∀ j < s.sends.length, statusAt s.sends j = some .inFlight →
    shardAt hash s.conc s.sends j ≠ shardAt hash s.conc s.sends i) ∧
  (∀ j < i, shardAt hash s.conc s.sends j = shardAt hash s.conc s.sends i →
    statusAt s.sends j ≠ some .queued)

instance (hash : String → Nat) (s : DState) (i : Nat) :
    Decidable (startOk hash s i) := by
  unfold startOk
  exact inferInstance

/-- Point update of the send registry at index `i`. -/
def updateAt : Nat → (SendRec → SendRec) → List SendRec → List SendRec
  | _, _, [] => []
  | 0, f, r :: rs => f r :: rs
  | i + 1, f, r :: rs => r :: updateAt i f rs

/-- Events of the dispatcher's transition system. -/
inductive DEvent
  | enqueue (key : Option String)
  | start (i : Nat)
  | finish (i : Nat) (ok : Bool)
  | close
  | shutdownAbort (i : Nat)
deriving DecidableEq, Repr

/-- One dispatcher step.  `enqueue` registers a send (rejected with a
closed error once the producer is closed); `start` lets a worker pull a
shard's head under the dispatch guard; `finish` completes the in-flight
transmit of `i` with a receipt or a transport error and fires the
callback; `close` stops further enqueues; `shutdownAbort` fails a
not-yet-terminal send with a shutdown error during close.  Invalid
events return `none`. -/
def setInFlight (r : SendRec) : SendRec := { r with status := .inFlight }

/-- Record the completion of a transmit: a receipt on success, a
transport error on failure, and one callback invocation. -/
def completeRec (ok : Bool) (r : SendRec) : SendRec :=
  { r with
    status := if ok then .doneOk else .doneErr .transportE,
    cbCount := r.cbCount + 1 }

/-- Record the shutdown failure of a pending send: a shutdown error and
one callback invocation. -/
def abortRec (r : SendRec) : SendRec :=
  { r with status := .doneErr .shutdownE, cbCount := r.cbCount + 1 }

def step (hash : String → Nat) (s : DState) : DEvent → Option DState
  | .enqueue key =>
    if s.closed then
      some { s with sends := s.sends ++ [⟨key, .doneErr .closedE, 1⟩] }
    else
      some { s with sends := s.sends ++ [⟨key, .queued, 0⟩] }
  | .start i =>
    if startOk hash s i then
      some { s with
        sends := updateAt i setInFlight s.sends,
        transmits := s.transmits ++ [i] }
    else none
  | .finish i ok =>
    if statusAt s.sends i = some .inFlight then
      some { s with sends := updateAt i (completeRec ok) s.sends }
    else none
  | .close => some { s with closed := true }
  | .shutdownAbort i =>
    if s.closed ∧ (statusAt s.sends i = some .queued ∨
        statusAt s.sends i = some .inFlight) then
      some { s with sends := updateAt i abortRec s.sends }
    else none

/-- Total step: an invalid event leaves the state unchanged. -/
def stepD (hash : String → Nat) (s : DState) (e : DEvent) : DState :=
  (step hash s e).getD s

/-- Run a sequence of events. -/
def run (hash : String → Nat) (s : DState) : List DEvent → DState
  | [] => s
  | e :: es => run hash (stepD hash s e) es

/-- The dispatcher as built by the producer: `conc` shards/workers, no
sends, open. -/
def init (conc : Nat) : DState := ⟨conc, [], [], false⟩

/-- Fail every not-yet-terminal send with a shutdown error, firing its
callback. -/
def abortAll (l : List SendRec) : List SendRec :=
  l.map fun r =>
    if r.status.isTerminal then r
    else { r with status := .doneErr .shutdownE, cbCount := r.cbCount + 1 }

/-- `close(timeout)`: stop accepting enqueues, let the dispatcher drain
for a while (`drain` is whatever work happens before the timeout
expires), then fail everything still pending with a shutdown error.
When `closeOp` returns, every send is terminal. -/
def closeOp (hash : String → Nat) (drain : List DEvent) (s : DState) : DState :=
  { run hash { s with closed := true } drain with
    sends := abortAll (run hash { s with closed := true } drain).sends }

/-- The FIFO producer builder surface exercised by the benchmark:
endpoints (from `withEndpoints`), concurrency (`withConcurrency`),
topics (`withTopics`). -/
structure FifoProducerBuilder where
  endpoints : List String
  concurrency : Nat
  topics : List String
deriving DecidableEq, Repr

/-- Configuration errors raised by the builder. -/
inductive ConfigErr
  | emptyEndpoints
  | badConcurrency
  | emptyTopics
deriving DecidableEq, Repr

/-- `build`: validate the configuration before construction; on success
the dispatcher starts in `init concurrency`. -/
def build (b : FifoProducerBuilder) : Except ConfigErr DState :=
  if b.endpoints = [] then .error .emptyEndpoints
  else if b.concurrency < 1 then .error .badConcurrency
  else if b.topics = [] then .error .emptyTopics
  else .ok (init b.concurrency)

end FifoCore

namespace FifoCore

theorem length_updateAt (i : Nat) (f : SendRec → SendRec) :
    ∀ l : List SendRec, (updateAt i f l).length = l.length := by
  induction i with
  | zero =>
    intro l
    cases l <;> simp [updateAt]
  | succ i2 ih =>
    intro l
    cases l <;> simp [updateAt, ih]

theorem getElem?_updateAt (f : SendRec → SendRec) :
    ∀ (l : List SendRec) (i j : Nat),
      (updateAt i f l)[j]? = if j = i then (l[i]?).map f else l[j]? := by
  intro l
  induction l with
  | nil =>
    intro i j
    simp [updateAt]
  | cons r rs ih =>
    intro i j
    cases i with
    | zero =>
      cases j with
      | zero => simp [updateAt]
      | succ j2 => simp [updateAt]
    | succ i2 =>
      cases j with
      | zero => simp [updateAt]
      | succ j2 => simpa [updateAt] using ih i2 j2

theorem getElem?_concat {α : Type} (l : List α) (r : α) (j : Nat) :
    (l ++ [r])[j]? = if j = l.length then some r else l[j]? := by
  induction l generalizing j with
  | nil =>
    cases j with
    | zero => simp
    | succ j2 => simp
  | cons a as ih =>
    cases j with
    | zero => simp
    | succ j2 => simpa using ih j2

theorem countP_updateAt (p : SendRec → Bool) (f : SendRec → SendRec) :
    ∀ (l : List SendRec) (i : Nat),
      (updateAt i f l).countP p
          + ((l[i]?).elim 0 fun a => if p a then 1 else 0)
        = l.countP p + ((l[i]?).elim 0 fun a => if p (f a) then 1 else 0) := by
  intro l
  induction l with
  | nil =>
    intro i
    simp [updateAt]
  | cons r rs ih =>
    intro i
    cases i with
    | zero =>
      simp only [updateAt, List.countP_cons, List.getElem?_cons_zero, Option.elim]
      by_cases h1 : p r <;> by_cases h2 : p (f r) <;>
        simp [h1, h2] <;> omega
    | succ i2 =>
      have := ih i2
      simp only [updateAt, List.countP_cons, List.getElem?_cons_succ]
      by_cases h1 : p r <;> simp [h1] <;> omega

theorem statusAt_updateAt (f : SendRec → SendRec) (l : List SendRec) (i j : Nat) :
    statusAt (updateAt i f l) j
      = if j = i then (l[i]?).map fun r => (f r).status
        else statusAt l j := by
  simp only [statusAt, getElem?_updateAt]
  by_cases h : j = i
  · subst h
    cases l[j]? <;> simp
  · simp [h]

theorem keyAt_updateAt (f : SendRec → SendRec) (hf : ∀ r, (f r).key = r.key)
    (l : List SendRec) (i j : Nat) :
    keyAt (updateAt i f l) j = keyAt l j := by
  simp only [keyAt, getElem?_updateAt]
  by_cases h : j = i
  · subst h
    cases hg : l[j]? with
    | none => simp
    | some r => simp [hf r]
  · simp [h]

theorem shardAt_updateAt (hash : String → Nat) (n : Nat) (f : SendRec → SendRec)
    (hf : ∀ r, (f r).key = r.key) (l : List SendRec) (i j : Nat) :
    shardAt hash n (updateAt i f l) j = shardAt hash n l j := by
  simp [shardAt, keyAt_updateAt f hf]

theorem statusAt_concat (l : List SendRec) (r : SendRec) (j : Nat) :
    statusAt (l ++ [r]) j
      = if j = l.length then some r.status else statusAt l j := by
  simp only [statusAt, getElem?_concat]
  by_cases h : j = l.length <;> simp [h]

theorem keyAt_concat (l : List SendRec) (r : SendRec) (j : Nat) :
    keyAt (l ++ [r]) j = if j = l.length then some r.key else keyAt l j := by
  simp only [keyAt, getElem?_concat]
  by_cases h : j = l.length <;> simp [h]

theorem shardAt_concat (hash : String → Nat) (n : Nat) (l : List SendRec)
    (r : SendRec) (j : Nat) :
    shardAt hash n (l ++ [r]) j
      = if j = l.length then some (route hash n r.key) else shardAt hash n l j := by
  simp only [shardAt, keyAt_concat]
  by_cases h : j = l.length <;> simp [h]

theorem inFlightCount_concat (l : List SendRec) (r : SendRec) :
    inFlightCount (l ++ [r])
      = inFlightCount l
        + (if r.status = SendStatus.inFlight then 1 else 0) := by
  simp only [inFlightCount, List.countP_append, List.countP_cons]
  by_cases h : r.status = SendStatus.inFlight <;> simp [h]

end FifoCore

namespace FifoCore

theorem statusAt_eq_some {l : List SendRec} {i : Nat} {st : SendStatus} :
    statusAt l i = some st ↔ ∃ r, l[i]? = some r ∧ r.status = st := by
  simp [statusAt, Option.map_eq_some']

theorem lt_length_of_statusAt_some {l : List SendRec} {i : Nat} {st : SendStatus}
    (h : statusAt l i = some st) : i < l.length := by
  rcases statusAt_eq_some.mp h with ⟨r, hr, _⟩
  by_contra hlt
  rw [List.getElem?_eq_none (by omega)] at hr
  exact Option.noConfusion hr

theorem isTerminal_iff_delivered (st : SendStatus) :
    st.isTerminal = true ↔ ∃ v, deliveredResult st = some v := by
  cases st <;> simp [SendStatus.isTerminal, deliveredResult]

/-- The inductive invariant of the dispatcher, covering the spec's
guarantees: callbacks fire exactly once upon (and only upon) delivery
of a terminal result, at most `conc` transmits are in flight, distinct
in-flight sends occupy distinct shards, the transmit log only names
registered sends that have left the queued state, every transmitted
send arrived before every still-queued send of its shard, and the
transmit log is, per shard, strictly increasing in arrival order. -/
structure Inv (hash : String → Nat) (s : DState) : Prop where
  cb : ∀ (i : Nat) (r : SendRec), s.sends[i]? = some r →
    r.cbCount = if r.status.isTerminal then 1 else 0
  bound : inFlightCount s.sends ≤ s.conc
  excl : ∀ i j, i ≠ j → statusAt s.sends i = some .inFlight →
    statusAt s.sends j = some .inFlight →
    shardAt hash s.conc s.sends i ≠ shardAt hash s.conc s.sends j
  tmem : ∀ a ∈ s.transmits, a < s.sends.length
  tstart : ∀ a ∈ s.transmits, statusAt s.sends a ≠ some .queued
  fifoq : ∀ a ∈ s.transmits, ∀ b, statusAt s.sends b = some .queued →
    shardAt hash s.conc s.sends a = shardAt hash s.conc s.sends b → a < b
  tsort : ∀ (p q a b : Nat), p < q → s.transmits[p]? = some a →
    s.transmits[q]? = some b →
    shardAt hash s.conc s.sends a = shardAt hash s.conc s.sends b → a < b

theorem inv_init (hash : String → Nat) (conc : Nat) : Inv hash (init conc) := by
  constructor <;> simp [init, statusAt, inFlightCount]

end FifoCore

namespace FifoCore

theorem inv_enqueue (hash : String → Nat) (s : DState) (r : SendRec)
    (h : Inv hash s)
    (hst : r.status = .queued ∨ r.status = .doneErr .closedE)
    (hcb : r.cbCount = if r.status.isTerminal then 1 else 0) :
    Inv hash { s with sends := s.sends ++ [r] } := by
  have hnotfl : r.status ≠ SendStatus.inFlight := by
    rcases hst with h1 | h1 <;> simp [h1]
  constructor
  · intro j r2 hj
    rw [getElem?_concat] at hj
    by_cases hX : j = s.sends.length
    · rw [if_pos hX] at hj
      cases hj
      exact hcb
    · rw [if_neg hX] at hj
      exact h.cb j r2 hj
  · show inFlightCount (s.sends ++ [r]) ≤ s.conc
    rw [inFlightCount_concat, if_neg hnotfl]
    simpa using h.bound
  · intro a b hne ha hb
    have ha2 : a ≠ s.sends.length := by
      intro hX
      rw [statusAt_concat, if_pos hX] at ha
      injection ha with h3
      exact hnotfl h3
    have hb2 : b ≠ s.sends.length := by
      intro hX
      rw [statusAt_concat, if_pos hX] at hb
      injection hb with h3
      exact hnotfl h3
    rw [statusAt_concat, if_neg ha2] at ha
    rw [statusAt_concat, if_neg hb2] at hb
    show shardAt hash s.conc (s.sends ++ [r]) a ≠ shardAt hash s.conc (s.sends ++ [r]) b
    rw [shardAt_concat, if_neg ha2, shardAt_concat, if_neg hb2]
    exact h.excl a b hne ha hb
  · intro a ha
    have := h.tmem a ha
    simp only [List.length_append, List.length_cons, List.length_nil]
    omega
  · intro a ha
    have hlt := h.tmem a ha
    rw [statusAt_concat, if_neg (by omega)]
    exact h.tstart a ha
  · intro a ha b hqb hsh
    have hlt := h.tmem a ha
    by_cases hb2 : b = s.sends.length
    · omega
    · rw [statusAt_concat, if_neg hb2] at hqb
      rw [shardAt_concat, if_neg (by omega), shardAt_concat, if_neg hb2] at hsh
      exact h.fifoq a ha b hqb hsh
  · intro p q a b hpq hp hq hsh
    have hamem : a ∈ s.transmits := List.getElem?_mem hp
    have hbmem : b ∈ s.transmits := List.getElem?_mem hq
    have hla := h.tmem a hamem
    have hlb := h.tmem b hbmem
    rw [shardAt_concat, if_neg (by omega), shardAt_concat, if_neg (by omega)] at hsh
    exact h.tsort p q a b hpq hp hq hsh

theorem inv_close (hash : String → Nat) (s : DState) (h : Inv hash s) :
    Inv hash { s with closed := true } :=
  ⟨h.cb, h.bound, h.excl, h.tmem, h.tstart, h.fifoq, h.tsort⟩

end FifoCore

namespace FifoCore

theorem lt_length_of_getElem?_some {α : Type} {l : List α} {n : Nat} {a : α}
    (h : l[n]? = some a) : n < l.length := by
  by_contra hc
  rw [List.getElem?_eq_none (by omega)] at h
  exact Option.noConfusion h

theorem inv_start (hash : String → Nat) (s : DState) (i : Nat)
    (h : Inv hash s) (hok : startOk hash s i) :
    Inv hash { s with sends := updateAt i setInFlight s.sends,
                      transmits := s.transmits ++ [i] } := by
  obtain ⟨hq0, hcnt, hnofl, hmin⟩ := hok
  obtain ⟨ri, hri, hris⟩ := statusAt_eq_some.mp hq0
  have hlen : i < s.sends.length := lt_length_of_statusAt_some hq0
  have hkeys : ∀ r, (setInFlight r).key = r.key := fun _ => rfl
  have hsh : ∀ j, shardAt hash s.conc (updateAt i setInFlight s.sends) j
      = shardAt hash s.conc s.sends j :=
    fun j => shardAt_updateAt hash s.conc setInFlight hkeys s.sends i j
  have hst : ∀ j, statusAt (updateAt i setInFlight s.sends) j
      = if j = i then some .inFlight else statusAt s.sends j := by
    intro j
    rw [statusAt_updateAt]
    by_cases hx : j = i
    · rw [if_pos hx, if_pos hx, hri]
      rfl
    · rw [if_neg hx, if_neg hx]
  constructor
  · intro j r2 hj
    rw [getElem?_updateAt] at hj
    by_cases hx : j = i
    · rw [if_pos hx, hri] at hj
      cases hj
      have hc := h.cb i ri hri
      rw [hris] at hc
      simpa [setInFlight, SendStatus.isTerminal] using hc
    · rw [if_neg hx] at hj
      exact h.cb j r2 hj
  · show inFlightCount (updateAt i setInFlight s.sends) ≤ s.conc
    have hcp := countP_updateAt (fun r => decide (r.status = SendStatus.inFlight))
      setInFlight s.sends i
    rw [hri] at hcp
    simp only [Option.elim, hris, setInFlight] at hcp
    simp only [inFlightCount] at *
    simp at hcp
    omega
  · intro a b hne ha hb
    rw [hst] at ha hb
    show shardAt hash s.conc (updateAt i setInFlight s.sends) a
        ≠ shardAt hash s.conc (updateAt i setInFlight s.sends) b
    rw [hsh a, hsh b]
    by_cases hxa : a = i
    · subst hxa
      rw [if_neg (by omega)] at hb
      have hb2 := lt_length_of_statusAt_some hb
      exact fun heq => hnofl b hb2 hb heq.symm
    · rw [if_neg hxa] at ha
      by_cases hxb : b = i
      · subst hxb
        have ha2 := lt_length_of_statusAt_some ha
        exact hnofl a ha2 ha
      · rw [if_neg hxb] at hb
        exact h.excl a b hne ha hb
  · intro a ha
    show a < (updateAt i setInFlight s.sends).length
    rw [length_updateAt]
    rcases List.mem_append.mp ha with h1 | h1
    · exact h.tmem a h1
    · simp at h1
      omega
  · intro a ha
    rw [hst]
    by_cases hxa : a = i
    · rw [if_pos hxa]
      simp
    · rw [if_neg hxa]
      rcases List.mem_append.mp ha with h1 | h1
      · exact h.tstart a h1
      · simp at h1
        exact absurd h1 hxa
  · intro a ha b hqb hshab
    rw [hst] at hqb
    by_cases hxb : b = i
    · rw [if_pos hxb] at hqb
      simp at hqb
    · rw [if_neg hxb] at hqb
      rw [hsh a, hsh b] at hshab
      rcases List.mem_append.mp ha with h1 | h1
      · exact h.fifoq a h1 b hqb hshab
      · simp at h1
        subst h1
        by_contra hge
        have hbi : b < a := by omega
        exact hmin b hbi hshab.symm hqb
  · intro p q a b hpq hp hq2 hshab
    rw [hsh a, hsh b] at hshab
    show a < b
    have hp2 : (s.transmits ++ [i])[p]? = some a := hp
    have hq3 : (s.transmits ++ [i])[q]? = some b := hq2
    clear hp hq2
    rw [getElem?_concat] at hp2 hq3
    by_cases hxq : q = s.transmits.length
    · rw [if_pos hxq] at hq3
      injection hq3 with hb2
      subst hb2
      have hplt : p < s.transmits.length := by omega
      rw [if_neg (by omega)] at hp2
      have hamem : a ∈ s.transmits := List.getElem?_mem hp2
      exact h.fifoq a hamem i hq0 hshab
    · rw [if_neg hxq] at hq3
      have hqlt : q < s.transmits.length := lt_length_of_getElem?_some hq3
      rw [if_neg (by omega)] at hp2
      exact h.tsort p q a b hpq hp2 hq3 hshab

end FifoCore

namespace FifoCore

theorem inv_finish (hash : String → Nat) (s : DState) (i : Nat) (ok : Bool)
    (h : Inv hash s) (hfl : statusAt s.sends i = some .inFlight) :
    Inv hash { s with sends := updateAt i (completeRec ok) s.sends } := by
  obtain ⟨ri, hri, hris⟩ := statusAt_eq_some.mp hfl
  have hkeys : ∀ r, (completeRec ok r).key = r.key := fun _ => rfl
  have hterm : (completeRec ok ri).status.isTerminal = true := by
    cases ok <;> simp [completeRec, SendStatus.isTerminal]
  have hnq : (completeRec ok ri).status ≠ SendStatus.queued := by
    cases ok <;> simp [completeRec]
  have hnf : (completeRec ok ri).status ≠ SendStatus.inFlight := by
    cases ok <;> simp [completeRec]
  have hsh : ∀ j, shardAt hash s.conc (updateAt i (completeRec ok) s.sends) j
      = shardAt hash s.conc s.sends j :=
    fun j => shardAt_updateAt hash s.conc (completeRec ok) hkeys s.sends i j
  have hst : ∀ j, statusAt (updateAt i (completeRec ok) s.sends) j
      = if j = i then some (completeRec ok ri).status else statusAt s.sends j := by
    intro j
    rw [statusAt_updateAt]
    by_cases hx : j = i
    · rw [if_pos hx, if_pos hx, hri]
      rfl
    · rw [if_neg hx, if_neg hx]
  constructor
  · intro j r2 hj
    rw [getElem?_updateAt] at hj
    by_cases hx : j = i
    · rw [if_pos hx, hri] at hj
      cases hj
      have hc := h.cb i ri hri
      rw [hris] at hc
      simp [SendStatus.isTerminal] at hc
      rw [hterm]
      simp [completeRec, hc]
    · rw [if_neg hx] at hj
      exact h.cb j r2 hj
  · show inFlightCount (updateAt i (completeRec ok) s.sends) ≤ s.conc
    have hcp := countP_updateAt (fun r => decide (r.status = SendStatus.inFlight))
      (completeRec ok) s.sends i
    rw [hri] at hcp
    simp only [Option.elim] at hcp
    simp [hris, hnf] at hcp
    have hb := h.bound
    simp only [inFlightCount] at *
    omega
  · intro a b hne ha hb
    rw [hst] at ha hb
    show shardAt hash s.conc (updateAt i (completeRec ok) s.sends) a
        ≠ shardAt hash s.conc (updateAt i (completeRec ok) s.sends) b
    rw [hsh a, hsh b]
    by_cases hxa : a = i
    · rw [if_pos hxa] at ha
      injection ha with ha2
      exact absurd ha2 hnf
    · rw [if_neg hxa] at ha
      by_cases hxb : b = i
      · rw [if_pos hxb] at hb
        injection hb with hb2
        exact absurd hb2 hnf
      · rw [if_neg hxb] at hb
        exact h.excl a b hne ha hb
  · intro a ha
    show a < (updateAt i (completeRec ok) s.sends).length
    rw [length_updateAt]
    exact h.tmem a ha
  · intro a ha
    rw [hst]
    by_cases hxa : a = i
    · rw [if_pos hxa]
      intro hx
      injection hx with hx2
      exact hnq hx2
    · rw [if_neg hxa]
      exact h.tstart a ha
  · intro a ha b hqb hshab
    rw [hst] at hqb
    by_cases hxb : b = i
    · rw [if_pos hxb] at hqb
      injection hqb with hq2
      exact absurd hq2 hnq
    · rw [if_neg hxb] at hqb
      rw [hsh a, hsh b] at hshab
      exact h.fifoq a ha b hqb hshab
  · intro p q a b hpq hp hq2 hshab
    rw [hsh a, hsh b] at hshab
    exact h.tsort p q a b hpq hp hq2 hshab

theorem inv_abort (hash : String → Nat) (s : DState) (i : Nat)
    (h : Inv hash s)
    (hpend : statusAt s.sends i = some .queued ∨ statusAt s.sends i = some .inFlight) :
    Inv hash { s with sends := updateAt i abortRec s.sends } := by
  have hpend2 : ∃ ri, s.sends[i]? = some ri ∧
      (ri.status = SendStatus.queued ∨ ri.status = SendStatus.inFlight) := by
    rcases hpend with h1 | h1 <;>
      rcases statusAt_eq_some.mp h1 with ⟨ri, hri, hris⟩ <;>
      exact ⟨ri, hri, by simp [hris]⟩
  obtain ⟨ri, hri, hris⟩ := hpend2
  have hkeys : ∀ r, (abortRec r).key = r.key := fun _ => rfl
  have hnq : (abortRec ri).status ≠ SendStatus.queued := by
    simp [abortRec]
  have hnf : (abortRec ri).status ≠ SendStatus.inFlight := by
    simp [abortRec]
  have hsh : ∀ j, shardAt hash s.conc (updateAt i abortRec s.sends) j
      = shardAt hash s.conc s.sends j :=
    fun j => shardAt_updateAt hash s.conc abortRec hkeys s.sends i j
  have hst : ∀ j, statusAt (updateAt i abortRec s.sends) j
      = if j = i then some (abortRec ri).status else statusAt s.sends j := by
    intro j
    rw [statusAt_updateAt]
    by_cases hx : j = i
    · rw [if_pos hx, if_pos hx, hri]
      rfl
    · rw [if_neg hx, if_neg hx]
  constructor
  · intro j r2 hj
    rw [getElem?_updateAt] at hj
    by_cases hx : j = i
    · rw [if_pos hx, hri] at hj
      cases hj
      have hc := h.cb i ri hri
      have hcz : ri.cbCount = 0 := by
        rcases hris with h1 | h1 <;> rw [h1] at hc <;>
          simpa [SendStatus.isTerminal] using hc
      simp [abortRec, SendStatus.isTerminal, hcz]
    · rw [if_neg hx] at hj
      exact h.cb j r2 hj
  · show inFlightCount (updateAt i abortRec s.sends) ≤ s.conc
    have hcp := countP_updateAt (fun r => decide (r.status = SendStatus.inFlight))
      abortRec s.sends i
    rw [hri] at hcp
    simp only [Option.elim] at hcp
    simp [hnf] at hcp
    have hb := h.bound
    simp only [inFlightCount] at *
    rcases hris with h1 | h1 <;> simp [h1] at hcp <;> omega
  · intro a b hne ha hb
    rw [hst] at ha hb
    show shardAt hash s.conc (updateAt i abortRec s.sends) a
        ≠ shardAt hash s.conc (updateAt i abortRec s.sends) b
    rw [hsh a, hsh b]
    by_cases hxa : a = i
    · rw [if_pos hxa] at ha
      injection ha with ha2
      exact absurd ha2 hnf
    · rw [if_neg hxa] at ha
      by_cases hxb : b = i
      · rw [if_pos hxb] at hb
        injection hb with hb2
        exact absurd hb2 hnf
      · rw [if_neg hxb] at hb
        exact h.excl a b hne ha hb
  · intro a ha
    show a < (updateAt i abortRec s.sends).length
    rw [length_updateAt]
    exact h.tmem a ha
  · intro a ha
    rw [hst]
    by_cases hxa : a = i
    · rw [if_pos hxa]
      intro hx
      injection hx with hx2
      exact hnq hx2
    · rw [if_neg hxa]
      exact h.tstart a ha
  · intro a ha b hqb hshab
    rw [hst] at hqb
    by_cases hxb : b = i
    · rw [if_pos hxb] at hqb
      injection hqb with hq2
      exact absurd hq2 hnq
    · rw [if_neg hxb] at hqb
      rw [hsh a, hsh b] at hshab
      exact h.fifoq a ha b hqb hshab
  · intro p q a b hpq hp hq2 hshab
    rw [hsh a, hsh b] at hshab
    exact h.tsort p q a b hpq hp hq2 hshab

end FifoCore

namespace FifoCore

theorem inv_stepD (hash : String → Nat) (s : DState) (e : DEvent)
    (h : Inv hash s) : Inv hash (stepD hash s e) := by
  cases e with
  | enqueue key =>
    by_cases hc : s.closed
    · have heq : stepD hash s (DEvent.enqueue key)
          = { s with sends := s.sends ++ [⟨key, .doneErr .closedE, 1⟩] } := by
        simp [stepD, step, hc]
      rw [heq]
      exact inv_enqueue hash s _ h (Or.inr rfl) (by simp [SendStatus.isTerminal])
    · have heq : stepD hash s (DEvent.enqueue key)
          = { s with sends := s.sends ++ [⟨key, .queued, 0⟩] } := by
        simp [stepD, step, hc]
      rw [heq]
      exact inv_enqueue hash s _ h (Or.inl rfl) (by simp [SendStatus.isTerminal])
  | start i =>
    by_cases hok : startOk hash s i
    · have heq : stepD hash s (DEvent.start i)
          = { s with sends := updateAt i setInFlight s.sends,
                     transmits := s.transmits ++ [i] } := by
        simp [stepD, step, hok]
      rw [heq]
      exact inv_start hash s i h hok
    · have heq : stepD hash s (DEvent.start i) = s := by
        simp [stepD, step, hok]
      rw [heq]
      exact h
  | finish i ok =>
    by_cases hfl : statusAt s.sends i = some SendStatus.inFlight
    · have heq : stepD hash s (DEvent.finish i ok)
          = { s with sends := updateAt i (completeRec ok) s.sends } := by
        simp [stepD, step, hfl]
      rw [heq]
      exact inv_finish hash s i ok h hfl
    · have heq : stepD hash s (DEvent.finish i ok) = s := by
        simp [stepD, step, hfl]
      rw [heq]
      exact h
  | close =>
    have heq : stepD hash s DEvent.close = { s with closed := true } := by
      simp [stepD, step]
    rw [heq]
    exact inv_close hash s h
  | shutdownAbort i =>
    by_cases hg : s.closed = true ∧ (statusAt s.sends i = some SendStatus.queued ∨
        statusAt s.sends i = some SendStatus.inFlight)
    · have heq : stepD hash s (DEvent.shutdownAbort i)
          = { s with sends := updateAt i abortRec s.sends } := by
        simp [stepD, step, hg.1, hg.2]
      rw [heq]
      exact inv_abort hash s i h hg.2
    · have heq : stepD hash s (DEvent.shutdownAbort i) = s := by
        by_cases hc : s.closed
        · have hg2 : ¬ (statusAt s.sends i = some SendStatus.queued ∨
              statusAt s.sends i = some SendStatus.inFlight) := by
            intro hx
            exact hg ⟨hc, hx⟩
          simp [stepD, step, hc, hg2]
        · simp [stepD, step, hc]
      rw [heq]
      exact h

theorem inv_run (hash : String → Nat) (es : List DEvent) :
    ∀ s : DState, Inv hash s → Inv hash (run hash s es) := by
  induction es with
  | nil =>
    intro s h
    exact h
  | cons e es2 ih =>
    intro s h
    exact ih _ (inv_stepD hash s e h)

theorem inv_reach (hash : String → Nat) (conc : Nat) (es : List DEvent) :
    Inv hash (run hash (init conc) es) :=
  inv_run hash es _ (inv_init hash conc)

theorem stepD_facts (hash : String → Nat) (s : DState) (e : DEvent) :
    (stepD hash s e).conc = s.conc ∧
      (s.closed = true → (stepD hash s e).closed = true) ∧
      (∀ (i : Nat) (r : SendRec), s.sends[i]? = some r →
        ∃ r2 : SendRec, (stepD hash s e).sends[i]? = some r2 ∧ r2.key = r.key ∧
          (r.status.isTerminal = true → r2 = r)) := by
  cases e with
  | enqueue key =>
    by_cases hc : s.closed
    · have heq : stepD hash s (DEvent.enqueue key)
          = { s with sends := s.sends ++ [⟨key, .doneErr .closedE, 1⟩] } := by
        simp [stepD, step, hc]
      rw [heq]
      refine ⟨rfl, fun h2 => h2, ?_⟩
      intro i r hr
      have hlt := lt_length_of_getElem?_some hr
      refine ⟨r, ?_, rfl, fun _ => rfl⟩
      rw [getElem?_concat, if_neg (by omega)]
      exact hr
    · have heq : stepD hash s (DEvent.enqueue key)
          = { s with sends := s.sends ++ [⟨key, .queued, 0⟩] } := by
        simp [stepD, step, hc]
      rw [heq]
      refine ⟨rfl, fun h2 => h2, ?_⟩
      intro i r hr
      have hlt := lt_length_of_getElem?_some hr
      refine ⟨r, ?_, rfl, fun _ => rfl⟩
      rw [getElem?_concat, if_neg (by omega)]
      exact hr
  | start i =>
    by_cases hok : startOk hash s i
    · have heq : stepD hash s (DEvent.start i)
          = { s with sends := updateAt i setInFlight s.sends,
                     transmits := s.transmits ++ [i] } := by
        simp [stepD, step, hok]
      rw [heq]
      refine ⟨rfl, fun h2 => h2, ?_⟩
      intro j r hr
      rw [getElem?_updateAt]
      by_cases hx : j = i
      · subst hx
        rw [if_pos rfl, hr]
        refine ⟨setInFlight r, rfl, rfl, ?_⟩
        intro hterm
        exfalso
        have hq0 := hok.1
        rw [statusAt, hr] at hq0
        simp at hq0
        rw [hq0] at hterm
        simp [SendStatus.isTerminal] at hterm
      · rw [if_neg hx]
        exact ⟨r, hr, rfl, fun _ => rfl⟩
    · have heq : stepD hash s (DEvent.start i) = s := by
        simp [stepD, step, hok]
      rw [heq]
      exact ⟨rfl, fun h2 => h2, fun i r hr => ⟨r, hr, rfl, fun _ => rfl⟩⟩
  | finish i ok =>
    by_cases hfl : statusAt s.sends i = some SendStatus.inFlight
    · have heq : stepD hash s (DEvent.finish i ok)
          = { s with sends := updateAt i (completeRec ok) s.sends } := by
        simp [stepD, step, hfl]
      rw [heq]
      refine ⟨rfl, fun h2 => h2, ?_⟩
      intro j r hr
      rw [getElem?_updateAt]
      by_cases hx : j = i
      · subst hx
        rw [if_pos rfl, hr]
        refine ⟨completeRec ok r, rfl, rfl, ?_⟩
        intro hterm
        exfalso
        rw [statusAt, hr] at hfl
        simp at hfl
        rw [hfl] at hterm
        simp [SendStatus.isTerminal] at hterm
      · rw [if_neg hx]
        exact ⟨r, hr, rfl, fun _ => rfl⟩
    · have heq : stepD hash s (DEvent.finish i ok) = s := by
        simp [stepD, step, hfl]
      rw [heq]
      exact ⟨rfl, fun h2 => h2, fun i r hr => ⟨r, hr, rfl, fun _ => rfl⟩⟩
  | close =>
    have heq : stepD hash s DEvent.close = { s with closed := true } := by
      simp [stepD, step]
    rw [heq]
    exact ⟨rfl, fun _ => rfl, fun i r hr => ⟨r, hr, rfl, fun _ => rfl⟩⟩
  | shutdownAbort i =>
    by_cases hg : s.closed = true ∧ (statusAt s.sends i = some SendStatus.queued ∨
        statusAt s.sends i = some SendStatus.inFlight)
    · have heq : stepD hash s (DEvent.shutdownAbort i)
          = { s with sends := updateAt i abortRec s.sends } := by
        simp [stepD, step, hg.1, hg.2]
      rw [heq]
      refine ⟨rfl, fun h2 => h2, ?_⟩
      intro j r hr
      rw [getElem?_updateAt]
      by_cases hx : j = i
      · subst hx
        rw [if_pos rfl, hr]
        refine ⟨abortRec r, rfl, rfl, ?_⟩
        intro hterm
        exfalso
        have hp := hg.2
        rw [statusAt, hr] at hp
        simp at hp
        rcases hp with h1 | h1 <;> rw [h1] at hterm <;>
          simp [SendStatus.isTerminal] at hterm
      · rw [if_neg hx]
        exact ⟨r, hr, rfl, fun _ => rfl⟩
    · have heq : stepD hash s (DEvent.shutdownAbort i) = s := by
        by_cases hc : s.closed
        · have hg2 : ¬ (statusAt s.sends i = some SendStatus.queued ∨
              statusAt s.sends i = some SendStatus.inFlight) := by
            intro hx
            exact hg ⟨hc, hx⟩
          simp [stepD, step, hc, hg2]
        · simp [stepD, step, hc]
      rw [heq]
      exact ⟨rfl, fun h2 => h2, fun i r hr => ⟨r, hr, rfl, fun _ => rfl⟩⟩

theorem run_facts (hash : String → Nat) (es : List DEvent) :
    ∀ s : DState, (run hash s es).conc = s.conc ∧
      (s.closed = true → (run hash s es).closed = true) ∧
      (∀ (i : Nat) (r : SendRec), s.sends[i]? = some r →
        ∃ r2 : SendRec, (run hash s es).sends[i]? = some r2 ∧ r2.key = r.key ∧
          (r.status.isTerminal = true → r2 = r)) := by
  induction es with
  | nil =>
    intro s
    exact ⟨rfl, fun h2 => h2, fun i r hr => ⟨r, hr, rfl, fun _ => rfl⟩⟩
  | cons e es2 ih =>
    intro s
    obtain ⟨hc1, hc2, hc3⟩ := stepD_facts hash s e
    obtain ⟨hd1, hd2, hd3⟩ := ih (stepD hash s e)
    refine ⟨hd1.trans hc1, fun h2 => hd2 (hc2 h2), ?_⟩
    intro i r hr
    obtain ⟨r1, hr1, hk1, ht1⟩ := hc3 i r hr
    obtain ⟨r2, hr2, hk2, ht2⟩ := hd3 i r1 hr1
    refine ⟨r2, hr2, by rw [hk2, hk1], ?_⟩
    intro hterm
    have he1 : r1 = r := ht1 hterm
    rw [ht2 (by rw [he1]; exact hterm), he1]

end FifoCore

namespace FifoCore

theorem shardAt_eq_of_keyAt_eq (hash : String → Nat) (n : Nat)
    (l : List SendRec) (a b : Nat) (hk : keyAt l a = keyAt l b) :
    shardAt hash n l a = shardAt hash n l b := by
  unfold shardAt
  rw [hk]

/-- C1: for any two messages with the same ordering-key, if A is
enqueued before B (arrival index of A is smaller) then the transmit of
A occurs before the transmit of B (its position in the transmit log is
smaller), and in no reachable dispatcher state are two sends of the
same ordering-key in flight simultaneously. -/
theorem c1_fifo_per_key (hash : String → Nat) (conc : Nat)
    (es : List DEvent) (s : DState) (hs : run hash (init conc) es = s) :
    (∀ (a b p q : Nat), keyAt s.sends a = keyAt s.sends b → a < b →
      s.transmits[p]? = some a → s.transmits[q]? = some b → p < q) ∧
    (∀ (i j : Nat), i ≠ j → statusAt s.sends i = some .inFlight →
      statusAt s.sends j = some .inFlight →
      keyAt s.sends i ≠ keyAt s.sends j) := by
  have h : Inv hash s := hs ▸ inv_reach hash conc es
  constructor
  · intro a b p q hk hab hp hq
    have hsh := shardAt_eq_of_keyAt_eq hash s.conc s.sends a b hk
    by_contra hpq
    push_neg at hpq
    rcases Nat.lt_or_ge q p with h1 | h1
    · have := h.tsort q p b a h1 hq hp hsh.symm
      omega
    · have hqp : q = p := by omega
      rw [hqp, hp] at hq
      injection hq with h2
      omega
  · intro i j hne hfi hfj hk
    exact h.excl i j hne hfi hfj (shardAt_eq_of_keyAt_eq hash s.conc s.sends i j hk)

/-- Witness for C1: a two-message same-key trace transmits in arrival
order, and a two-key trace has distinct keys in flight. -/
theorem c1_fifo_per_key_witness :
    (0 : Nat) < 1 ∧
      keyAt (run String.length (init 2)
        [DEvent.enqueue (some "a"), DEvent.enqueue (some "bb"),
         DEvent.start 0, DEvent.start 1]).sends 0
      ≠ keyAt (run String.length (init 2)
        [DEvent.enqueue (some "a"), DEvent.enqueue (some "bb"),
         DEvent.start 0, DEvent.start 1]).sends 1 :=
  ⟨(c1_fifo_per_key String.length 2
      [DEvent.enqueue (some "g"), DEvent.enqueue (some "g"),
       DEvent.start 0, DEvent.finish 0 true, DEvent.start 1] _ rfl).1
      0 1 0 1 (by decide) (by decide) (by decide) (by decide),
   (c1_fifo_per_key String.length 2
      [DEvent.enqueue (some "a"), DEvent.enqueue (some "bb"),
       DEvent.start 0, DEvent.start 1] _ rfl).2
      0 1 (by decide) (by decide) (by decide)⟩

/-- C2: in every reachable dispatcher state, the number of concurrently
in-flight transmits never exceeds the concurrency configured at
construction. -/
theorem c2_inflight_bounded (hash : String → Nat) (conc : Nat)
    (es : List DEvent) (s : DState) (hs : run hash (init conc) es = s) :
    inFlightCount s.sends ≤ conc := by
  have h : Inv hash s := hs ▸ inv_reach hash conc es
  have hconc : s.conc = conc := by
    rw [← hs]
    exact (run_facts hash es (init conc)).1
  rw [← hconc]
  exact h.bound

/-- Witness for C2 on a concrete trace saturating one worker. -/
theorem c2_inflight_bounded_witness :
    inFlightCount (run String.length (init 1)
      [DEvent.enqueue (some "a"), DEvent.start 0]).sends ≤ 1 :=
  c2_inflight_bounded String.length 1
    [DEvent.enqueue (some "a"), DEvent.start 0] _ rfl

/-- C5: the router is `hash(key) mod shard_count`, it is deterministic
in the key and the shard count, and its result is always strictly below
the shard count. -/
theorem c5_route_deterministic_bounded (hash : String → Nat) (n : Nat)
    (key : Option String) (h : 0 < n) :
    route hash n key = hash (key.getD "") % n ∧
      route hash n key < n ∧
      ∀ key2 : Option String, key2 = key → route hash n key2 = route hash n key := by
  exact ⟨rfl, Nat.mod_lt _ h, fun key2 hk => by rw [hk]⟩

/-- Witness for C5 at a concrete hash, key and shard count. -/
theorem c5_route_deterministic_bounded_witness :
    route String.length 4 (some "abc") = String.length "abc" % 4 ∧
      route String.length 4 (some "abc") < 4 ∧
      ∀ key2 : Option String, key2 = some "abc" →
        route String.length 4 key2 = route String.length 4 (some "abc") :=
  c5_route_deterministic_bounded String.length 4 (some "abc") (by decide)

/-- C8: a message with an empty or absent ordering-key is routed to the
single default shard (the shard of the absent key), so all such
messages share one FIFO lane. -/
theorem c8_empty_key_default_shard (hash : String → Nat) (n : Nat)
    (key : Option String) (h : key = none ∨ key = some "") :
    route hash n key = route hash n none := by
  rcases h with h1 | h1 <;> rw [h1] <;> rfl

/-- Witness for C8 with the empty-string key. -/
theorem c8_empty_key_default_shard_witness :
    route String.length 4 (some "") = route String.length 4 none :=
  c8_empty_key_default_shard String.length 4 (some "") (Or.inr rfl)

/-- C6: the builder validates its configuration before construction:
it reports a configuration error exactly when the endpoint list is
empty, the concurrency is below 1, or the topic set is empty; and on
success it immediately yields the freshly initialized dispatcher, so an
invalid configuration can never reach first-send time. -/
theorem c6_builder_validates (b : FifoProducerBuilder) :
    ((∃ e, build b = Except.error e) ↔
      (b.endpoints = [] ∨ b.concurrency < 1 ∨ b.topics = [])) ∧
    (∀ s : DState, build b = Except.ok s →
      b.endpoints ≠ [] ∧ 1 ≤ b.concurrency ∧ b.topics ≠ [] ∧
        s = init b.concurrency) := by
  unfold build
  by_cases h1 : b.endpoints = []
  · simp [h1]
  · by_cases h2 : b.concurrency < 1
    · simp [h1, h2]
    · by_cases h3 : b.topics = []
      · simp [h1, h2, h3]
      · simp [h1, h2, h3]
        omega

/-- Witness for C6: an empty endpoint list fails to build. -/
theorem c6_builder_validates_witness :
    ∃ e, build ⟨[], 3, ["fifo_topic"]⟩ = Except.error e :=
  (c6_builder_validates ⟨[], 3, ["fifo_topic"]⟩).1.mpr (Or.inl rfl)

end FifoCore

namespace FifoCore

/-- C3: every send's completion callback fires exactly once: in every
reachable state a callback has fired at most once, and it has fired
exactly once precisely when a result — exactly one of a receipt or an
error — has been delivered; after the close lifecycle completes, every
registered send's callback has fired exactly once, transmit failures
included. -/
theorem c3_callback_exactly_once (hash : String → Nat) (conc : Nat)
    (es drain : List DEvent) (s : DState) (hs : run hash (init conc) es = s) :
    (∀ (i : Nat) (r : SendRec), s.sends[i]? = some r →
      r.cbCount ≤ 1 ∧
        (r.cbCount = 1 ↔ ∃ v, deliveredResult r.status = some v)) ∧
    (∀ (i : Nat) (r : SendRec), (closeOp hash drain s).sends[i]? = some r →
      r.cbCount = 1 ∧ ∃ v, deliveredResult r.status = some v) := by
  have h : Inv hash s := hs ▸ inv_reach hash conc es
  constructor
  · intro i r hr
    have hc := h.cb i r hr
    by_cases ht : r.status.isTerminal = true
    · rw [if_pos ht] at hc
      refine ⟨by omega, ?_⟩
      constructor
      · intro _
        exact (isTerminal_iff_delivered r.status).mp ht
      · intro _
        exact hc
    · rw [if_neg ht] at hc
      refine ⟨by omega, ?_⟩
      constructor
      · intro h1
        omega
      · intro hv
        exact absurd ((isTerminal_iff_delivered r.status).mpr hv) ht
  · intro i r hr
    have h1 : Inv hash (run hash { s with closed := true } drain) :=
      inv_run hash drain _ (inv_close hash s h)
    have hr2 : (abortAll (run hash { s with closed := true } drain).sends)[i]?
        = some r := hr
    rw [abortAll, List.getElem?_map] at hr2
    rcases Option.map_eq_some'.mp hr2 with ⟨r0, hr0, hg⟩
    have hc := h1.cb i r0 hr0
    by_cases ht : r0.status.isTerminal = true
    · rw [if_pos ht] at hc
      rw [if_pos ht] at hg
      rw [← hg]
      exact ⟨hc, (isTerminal_iff_delivered r0.status).mp ht⟩
    · rw [if_neg ht] at hc
      rw [if_neg ht] at hg
      rw [← hg]
      exact ⟨by simp [hc], ⟨Except.error ErrKind.shutdownE, rfl⟩⟩

/-- Witness for C3 on a trace whose only transmit fails. -/
theorem c3_callback_exactly_once_witness :
    (⟨some "a", SendStatus.doneErr ErrKind.transportE, 1⟩ : SendRec).cbCount ≤ 1 ∧
      ((⟨some "a", SendStatus.doneErr ErrKind.transportE, 1⟩ : SendRec).cbCount = 1 ↔
        ∃ v, deliveredResult
          (⟨some "a", SendStatus.doneErr ErrKind.transportE, 1⟩ : SendRec).status
          = some v) :=
  (c3_callback_exactly_once (fun _ => 0) 1
    [DEvent.enqueue (some "a"), DEvent.start 0, DEvent.finish 0 false] [] _ rfl).1
    0 ⟨some "a", SendStatus.doneErr ErrKind.transportE, 1⟩ (by decide)

/-- C4: once `close(timeout)` has returned, the producer stays closed,
every subsequent enqueue is rejected with a closed error through its
result channel, and every send registered before the close has reached
a terminal state without being dropped: it is still at its arrival
index, with its ordering-key intact. -/
theorem c4_close_rejects_and_terminal (hash : String → Nat) (conc : Nat)
    (es drain : List DEvent) (k : Option String) (s t : DState)
    (hs : run hash (init conc) es = s) (ht : closeOp hash drain s = t) :
    t.closed = true ∧
      (∀ (es2 : List DEvent) (u : DState), run hash t es2 = u →
        u.closed = true ∧
        (stepD hash u (DEvent.enqueue k)).sends[u.sends.length]?
          = some ⟨k, .doneErr .closedE, 1⟩) ∧
      (∀ (i : Nat) (r : SendRec), s.sends[i]? = some r →
        ∃ r2 : SendRec, t.sends[i]? = some r2 ∧ r2.key = r.key ∧
          r2.status.isTerminal = true) := by
  subst ht
  have htc : (closeOp hash drain s).closed = true := by
    show (run hash { s with closed := true } drain).closed = true
    exact (run_facts hash drain _).2.1 rfl
  refine ⟨htc, ?_, ?_⟩
  · intro es2 u hu
    have huc : u.closed = true := by
      rw [← hu]
      exact (run_facts hash es2 _).2.1 htc
    refine ⟨huc, ?_⟩
    have heq : stepD hash u (DEvent.enqueue k)
        = { u with sends := u.sends ++ [⟨k, .doneErr .closedE, 1⟩] } := by
      simp [stepD, step, huc]
    rw [heq]
    rw [getElem?_concat, if_pos rfl]
  · intro i r hr
    have hr1 : ({ s with closed := true } : DState).sends[i]? = some r := hr
    obtain ⟨r1, hr1b, hk1, -⟩ := (run_facts hash drain _).2.2 i r hr1
    refine ⟨if r1.status.isTerminal then r1
        else { r1 with status := .doneErr .shutdownE, cbCount := r1.cbCount + 1 },
      ?_, ?_, ?_⟩
    · show (abortAll (run hash { s with closed := true } drain).sends)[i]? = _
      rw [abortAll, List.getElem?_map, hr1b]
      rfl
    · by_cases ht1 : r1.status.isTerminal = true
      · rw [if_pos ht1]
        exact hk1
      · rw [if_neg ht1]
        exact hk1
    · by_cases ht1 : r1.status.isTerminal = true
      · rw [if_pos ht1]
        exact ht1
      · rw [if_neg ht1]
        simp [SendStatus.isTerminal]

/-- Witness for C4 on a concrete close of a part-way dispatched
workload. -/
theorem c4_close_rejects_and_terminal_witness :
    (closeOp (fun _ => 0) [DEvent.start 0]
      (run (fun _ => 0) (init 2)
        [DEvent.enqueue (some "a"), DEvent.enqueue (some "b")])).closed = true ∧
      (∀ (es2 : List DEvent) (u : DState),
        run (fun _ => 0) (closeOp (fun _ => 0) [DEvent.start 0]
          (run (fun _ => 0) (init 2)
            [DEvent.enqueue (some "a"), DEvent.enqueue (some "b")])) es2 = u →
        u.closed = true ∧
        (stepD (fun _ => 0) u (DEvent.enqueue (some "c"))).sends[u.sends.length]?
          = some ⟨some "c", .doneErr .closedE, 1⟩) ∧
      (∀ (i : Nat) (r : SendRec),
        (run (fun _ => 0) (init 2)
          [DEvent.enqueue (some "a"), DEvent.enqueue (some "b")]).sends[i]?
          = some r →
        ∃ r2 : SendRec,
          (closeOp (fun _ => 0) [DEvent.start 0]
            (run (fun _ => 0) (init 2)
              [DEvent.enqueue (some "a"), DEvent.enqueue (some "b")])).sends[i]?
            = some r2 ∧ r2.key = r.key ∧ r2.status.isTerminal = true) :=
  c4_close_rejects_and_terminal (fun _ => 0) 2
    [DEvent.enqueue (some "a"), DEvent.enqueue (some "b")] [DEvent.start 0]
    (some "c") _ _ rfl rfl

/-- C7: when the transmit of send `i` fails, `i` is completed with a
transport error and its callback fires (exactly once); the failure is
never retried — `i` stays in the transport-error state under any
further events — and it does not block dispatch: any queued head of a
shard (in particular `i`'s own shard, now free of in-flight work) can
start whenever a worker is available. -/
theorem c7_transmit_failure_isolated (hash : String → Nat) (conc : Nat)
    (es : List DEvent) (s t : DState) (i : Nat)
    (hs : run hash (init conc) es = s)
    (ht : step hash s (DEvent.finish i false) = some t) :
    (∃ k : Option String, t.sends[i]? = some ⟨k, .doneErr .transportE, 1⟩) ∧
      (∀ es2 : List DEvent,
        statusAt (run hash t es2).sends i = some (.doneErr .transportE)) ∧
      (∀ j : Nat, statusAt t.sends j = some .queued →
        shardAt hash t.conc t.sends j = shardAt hash t.conc t.sends i →
        (∀ m, m < j →
          shardAt hash t.conc t.sends m = shardAt hash t.conc t.sends j →
          statusAt t.sends m ≠ some .queued) →
        inFlightCount t.sends < t.conc →
        step hash t (DEvent.start j) ≠ none) := by
  have h : Inv hash s := hs ▸ inv_reach hash conc es
  have hfl : statusAt s.sends i = some SendStatus.inFlight := by
    by_contra hx
    simp [step, hx] at ht
  have htt : t = { s with sends := updateAt i (completeRec false) s.sends } := by
    simp [step, hfl] at ht
    exact ht.symm
  subst htt
  obtain ⟨ri, hri, hris⟩ := statusAt_eq_some.mp hfl
  have hcz : ri.cbCount = 0 := by
    have hc := h.cb i ri hri
    rw [hris] at hc
    simpa [SendStatus.isTerminal] using hc
  have hrec : (updateAt i (completeRec false) s.sends)[i]?
      = some ⟨ri.key, .doneErr .transportE, 1⟩ := by
    rw [getElem?_updateAt, if_pos rfl, hri]
    simp [completeRec, hcz]
  refine ⟨⟨ri.key, hrec⟩, ?_, ?_⟩
  · intro es2
    obtain ⟨-, -, hp⟩ := run_facts hash es2
      { s with sends := updateAt i (completeRec false) s.sends }
    obtain ⟨r2, hr2, hk2, hterm⟩ := hp i ⟨ri.key, .doneErr .transportE, 1⟩ hrec
    rw [statusAt, hr2, hterm (by simp [SendStatus.isTerminal])]
    rfl
  · intro j hqj hshj hminj hcntj
    have hti : statusAt (updateAt i (completeRec false) s.sends) i
        = some (SendStatus.doneErr ErrKind.transportE) := by
      rw [statusAt, hrec]
      rfl
    have hkeys : ∀ r, (completeRec false r).key = r.key := fun _ => rfl
    have hshx : ∀ x, shardAt hash s.conc (updateAt i (completeRec false) s.sends) x
        = shardAt hash s.conc s.sends x :=
      fun x => shardAt_updateAt hash s.conc (completeRec false) hkeys s.sends i x
    have hok : startOk hash
        { s with sends := updateAt i (completeRec false) s.sends } j := by
      refine ⟨hqj, hcntj, ?_, hminj⟩
      intro m hm hflm
      have hmi : m ≠ i := by
        intro hx
        subst hx
        rw [hti] at hflm
        simp at hflm
      have hsm : statusAt s.sends m = some SendStatus.inFlight := by
        rw [statusAt_updateAt, if_neg hmi] at hflm
        exact hflm
      intro heq
      exact h.excl m i hmi hsm hfl
        (((hshx m).symm.trans heq).trans (hshj.trans (hshx i)))
    simp [step, hok]

/-- Witness for C7: after the head of shard 0 fails in transit, the
next message of the same shard can start. -/
theorem c7_transmit_failure_isolated_witness :
    step (fun _ => 0)
      (run (fun _ => 0) (init 2)
        [DEvent.enqueue (some "g"), DEvent.enqueue (some "g"),
         DEvent.start 0, DEvent.finish 0 false])
      (DEvent.start 1) ≠ none :=
  (c7_transmit_failure_isolated (fun _ => 0) 2
    [DEvent.enqueue (some "g"), DEvent.enqueue (some "g"), DEvent.start 0]
    _ _ 0 rfl (by decide)).2.2 1 (by decide) (by decide) (by decide) (by decide)

end FifoCore
